import Mathlib

/-!
Verification of the collection engine in `insights/collect.py`.

The Python module is shallowly embedded: each function of the source is
translated into an executable Lean definition over explicit state.  Python
strings are Lean `String`s; string comparison (`sorted`) and `str.startswith`
are modelled structurally over `String.data` (the underlying character list)
so that every definition computes inside the kernel.  Python dicts appear as
association lists, Python sets as `Finset`, and external effects (the
filesystem, `yaml.safe_load`, the `ser` codec, the `tar` subprocess) as
explicit parameters or returned operation lists.
-/

namespace Insights

/-! ### String primitives

Models of Python string comparison and `str.startswith`, written over
`String.data` by structural recursion. -/

/-- Lexicographic comparison of character lists by code point, the order
Python's `sorted` uses on strings. -/
def charListLe : List Char → List Char → Bool
  | [], _ => true
  | _ :: _, [] => false
  | a :: as, b :: bs =>
    if a.toNat < b.toNat then true
    else if b.toNat < a.toNat then false
    else charListLe as bs

/-- Model of Python `a <= b` on strings. -/
def strLe (a b : String) : Bool := charListLe a.data b.data

/-- Model of Python `s.startswith(p)`. -/
def strStartsWith (s p : String) : Bool := p.data.isPrefixOf s.data

/-- Fixed-string containment, the per-pattern test of `grep -F`. -/
def strContains (s pat : String) : Bool :=
  s.data.tails.any (fun t => pat.data.isPrefixOf t)

/-! ### Generic association-list primitives (Python dict operations) -/

def lookupBy {α β : Type} [DecidableEq α] : List (α × β) → α → Option β
  | [], _ => none
  | (k0, v) :: rest, k => if k0 = k then some v else lookupBy rest k

/-- Set key `k` to `v` in an association list, the single-key step of Python
`dict.__setitem__`. -/
def setEntry {β : Type} : List (String × β) → String → β → List (String × β)
  | [], k, v => [(k, v)]
  | (k0, v0) :: rest, k, v =>
    if k0 = k then (k, v) :: rest else (k0, v0) :: setEntry rest k v

/-- Model of Python `dict.update`: every key of `patch` is written into `m`. -/
def dictUpdate (m patch : List (String × String)) : List (String × String) :=
  patch.foldl (fun acc kv => setEntry acc kv.1 kv.2) m

/-! ### Registered components and configuration overrides

`dr.DELEGATES` / `dr.ENABLED` keyed by a component are modelled as a list of
`Comp` records: a dotted full name (`dr.get_name`), the enabled flag
(`dr.ENABLED[c]`), the delegate's metadata dict, and the optional `timeout`
attribute (`hasTimeout` models `hasattr(c, "timeout")`). -/

structure Comp where
  name : String
  enabled : Bool
  metadata : List (String × String)
  hasTimeout : Bool
  timeout : Option Int
deriving Repr, DecidableEq

instance : Inhabited Comp := ⟨⟨"", false, [], false, none⟩⟩

/-- One entry of the manifest's `configs` list.  `enabled = none` models a
missing `"enabled"` key (`comp_cfg.get("enabled", True)`), `timeout = none`
models a missing `"timeout"` key (`comp_cfg.get("timeout")` then yields
Python `None`). -/
structure ComponentConfig where
  name : String
  enabled : Option Bool
  metadata : List (String × String)
  timeout : Option Int
deriving Repr, DecidableEq

/-- The mutation `apply_configs` performs on one matched component:
`dr.ENABLED[c] = comp_cfg.get("enabled", True)`,
`delegate.metadata.update(comp_cfg.get("metadata", {}))`, and
`if hasattr(c, "timeout"): c.timeout = comp_cfg.get("timeout")`. -/
def updateComp (cfg : ComponentConfig) (c : Comp) : Comp :=
  { c with
    enabled := cfg.enabled.getD true
    metadata := dictUpdate c.metadata cfg.metadata
    timeout := if c.hasTimeout then cfg.timeout else c.timeout }

/-- `sorted(dr.DELEGATES, key=dr.get_name)`: the registered components in
ascending order of their full names. -/
def sortByName (l : List Comp) : List Comp :=
  l.insertionSort (fun a b => strLe a.name b.name = true)

/-- The inner loop of `apply_configs` for one override entry: walk the
name-sorted component list; a component whose name starts with the entry's
`name` is updated; after a component whose name equals `name` exactly the
loop breaks. -/
def applyConfigEntry (cfg : ComponentConfig) : List Comp → List Comp
  | [] => []
  | c :: rest =>
    let c2 := if strStartsWith c.name cfg.name then updateComp cfg c else c
    if c.name = cfg.name then c2 :: rest
    else c2 :: applyConfigEntry cfg rest

/-- Model of `apply_configs(configs)`: the component list is sorted by name
once, then every override entry runs `applyConfigEntry` over it in list
order. -/
def apply_configs (configs : List ComponentConfig) (registry : List Comp) :
    List Comp :=
  configs.foldl (fun comps cfg => applyConfigEntry cfg comps) (sortByName registry)

/-! ### The enabled-state map and `apply_default_enabled`

`dr.ENABLED` is a Python `defaultdict`: materialized entries plus the factory
value returned for any key that is absent. -/

structure EnabledMap where
  entries : List (String × Bool)
  fallback : Bool
deriving Repr, DecidableEq

/-- A `defaultdict` read: the materialized entry if present, otherwise the
factory value. -/
def EnabledMap.read (m : EnabledMap) (k : String) : Bool :=
  match lookupBy m.entries k with
  | some v => v
  | none => m.fallback

/-- Model of `apply_default_enabled(default_enabled)`: every materialized
entry is overwritten with `default_enabled`, and `dr.ENABLED` is replaced by
a `defaultdict(lambda: default_enabled)` seeded with those entries. -/
def apply_default_enabled (default_enabled : Bool) (m : EnabledMap) : EnabledMap :=
  { entries := m.entries.map (fun kv => (kv.1, default_enabled)),
    fallback := default_enabled }

/-! ### `load_manifest` -/

/-- The values `yaml.safe_load` can produce, as far as `load_manifest`
inspects them: a mapping, or anything that is not a mapping. -/
inductive YamlVal
  | dict (entries : List (String × YamlVal))
  | arr (items : List YamlVal)
  | str (s : String)
  | num (n : Int)
  | null
deriving Repr

/-- The argument of `load_manifest`: either an already-structured mapping
(`isinstance(data, dict)`) or raw manifest text. -/
inductive ManifestInput
  | dict (d : List (String × YamlVal))
  | raw (text : String)
deriving Repr

/-- Model of `load_manifest(data)`.  `safe_load` is the external YAML parser.
A raw text whose parse is not a mapping raises
`Exception("Manifest didn't result in dict.")`, the spec's
`ManifestFormatError`. -/
def load_manifest (safe_load : String → YamlVal) :
    ManifestInput → Except String (List (String × YamlVal))
  | .dict d => .ok d
  | .raw s =>
    match safe_load s with
    | .dict d => .ok d
    | _ => .error "Manifest didn't result in dict."

/-! ### Deferred file references, `copy`, and `relocate` -/

/-- An `insights.core.spec_factory.FileProvider` result: a path, the path
relative to the collection root, whether `content` has already been loaded,
and the underlying file (its byte size and its lines). -/
structure FileProvider where
  path : String
  relative_path : String
  loaded : Bool
  fileSize : Nat
  fileLines : List String
deriving Repr, DecidableEq

/-- A value stored in the broker for one component: a deferred file reference
or an already-materialized value. -/
inductive CollectResult
  | file (fp : FileProvider)
  | value (v : String)
deriving Repr, DecidableEq

/-- Python `os.path.join` for the relative destinations used here. -/
def pathJoin (root rel : String) : String := root ++ "/" ++ rel

/-- The filtered copy `grep -F <filters joined by newlines> src > dst`
performs: keep exactly the lines containing at least one filter substring. -/
def grepFilter (filters : List String) (lines : List String) : List String :=
  lines.filter (fun line => filters.any (fun f => strContains line f))

/-- Model of `copy(src, dst, filters)` restricted to the content written to
`dst`: with a non-empty filter list the source lines are filtered through
`grep -F`, otherwise `cp` copies them unchanged. -/
def copy (srcLines : List String) (filters : List String) : List String :=
  if filters.isEmpty then srcLines else grepFilter filters srcLines

/-- A file written under the raw-data directory by `copy`. -/
structure CopyOp where
  dst : String
  content : List String
deriving Repr, DecidableEq

/-- Model of the inner `move_it` of `relocate`: a non-`FileProvider` result
is returned untouched; a loaded reference is returned untouched; an unloaded
reference is either copied (size over a non-zero threshold) without being
loaded, or loaded into memory (`result.content`). -/
def move_it (root : String) (max_size : Nat) (filters : List String) :
    CollectResult → CollectResult × Option CopyOp
  | .value v => (.value v, none)
  | .file fp =>
    if fp.loaded then (.file fp, none)
    else if max_size ≠ 0 ∧ fp.fileSize > max_size then
      (.file fp, some ⟨pathJoin root fp.relative_path, copy fp.fileLines filters⟩)
    else
      (.file { fp with loaded := true }, none)

/-- A broker value as `relocate` receives it: a single result or a list of
results. -/
inductive Results
  | one (r : CollectResult)
  | many (rs : List CollectResult)
deriving Repr, DecidableEq

/-- Model of `relocate(results, root, max_size, filters)`: `move_it` mapped
over a list value, or applied to a single value, together with the copies
performed. -/
def relocate (results : Results) (root : String) (max_size : Nat)
    (filters : List String) : Results × List CopyOp :=
  match results with
  | .many rs =>
    let moved := rs.map (move_it root max_size filters)
    (.many (moved.map Prod.fst), moved.filterMap Prod.snd)
  | .one r =>
    let m := move_it root max_size filters r
    (.one m.1, m.2.toList)

/-- The threshold resolution in `collect`:
`manifest.get("max_serializable_file_size", 0)`. -/
def collect_max_file_size (manifest_value : Option Nat) : Nat :=
  manifest_value.getD 0

/-- The in-memory form a result takes when `relocate` materializes it:
a deferred file reference becomes loaded, anything else is untouched. -/
def contentLoaded : CollectResult → CollectResult
  | .file fp => .file { fp with loaded := true }
  | .value v => .value v

/-! ### The persister returned by `make_persister` -/

/-- Python truthiness of a broker value (`if value:`). -/
def Results.truthy : Results → Bool
  | .one (.file _) => true
  | .one (.value s) => !s.data.isEmpty
  | .many rs => !rs.isEmpty

/-- Run-scoped broker state, keyed by component. -/
structure Broker where
  instances : List (Comp × Results)
  exec_times : List (Comp × Nat)
  exceptions : List (Comp × String)

/-- The per-component document `persister` serializes:
`{name, time, results, errors}`. -/
structure PersistDoc where
  name : String
  time : Option Nat
  results : Results
  errors : Option String

/-- What a file on disk holds in this model: a raw-data copy, a serialized
document, or the empty content `open(path, "w")` leaves when `ser.dump`
fails before writing. -/
inductive FileContent
  | raw (lines : List String)
  | serial (s : String)
  | truncated
deriving Repr

structure FS where
  files : List (String × FileContent)

def fsWrite (fs : FS) (path : String) (content : FileContent) : FS :=
  { files := setEntry fs.files path content }

def fsRemove (fs : FS) (path : String) : FS :=
  { files := fs.files.filter (fun kv => if kv.1 = path then false else true) }

/-- The relocation step of `persister`: `if value: value = relocate(...)`. -/
def persisterValue (value0 : Results) (raw_data_dir : String) (max_size : Nat)
    (filters : List String) : Results × List CopyOp :=
  if value0.truthy then relocate value0 raw_data_dir max_size filters
  else (value0, [])

/-- The document `persister` builds for component `c`. -/
def persisterDoc (c : Comp) (broker : Broker) (value : Results) : PersistDoc :=
  { name := c.name,
    time := lookupBy broker.exec_times c,
    results := value,
    errors := lookupBy broker.exceptions c }

/-- The `try` block of `persister`: `open(path, "w")` truncates the file,
then the external serializer `ser.dump` either writes the document or raises
(`.error` carries the exception text and the filesystem as left behind). -/
def persisterTry (dump : PersistDoc → Except String String) (doc : PersistDoc)
    (path : String) (fs : FS) : Except (String × FS) FS :=
  let fs2 := fsWrite fs path .truncated
  match dump doc with
  | .ok s => .ok (fsWrite fs2 path (.serial s))
  | .error boom => .error (boom, fs2)

/-- Model of the closure returned by `make_persister`: for a component that
completed and is selected for persistence, relocate its value, build the
document, and serialize it to `data_dir/name.ser_name`; a serialization
failure is caught, logged, and the partially written file removed.  The
second output component is the list of error-log messages. -/
def persister (dump : PersistDoc → Except String String) (ser_name : String)
    (to_persist : Finset Comp) (raw_data_dir data_dir : String)
    (max_size : Nat) (filters : Comp → List String) (c : Comp)
    (broker : Broker) (fs : FS) : FS × List String :=
  match lookupBy broker.instances c with
  | none => (fs, [])
  | some value0 =>
    if c ∈ to_persist then
      let reloc := persisterValue value0 raw_data_dir max_size (filters c)
      let fs1 := reloc.2.foldl (fun acc op => fsWrite acc op.dst (.raw op.content)) fs
      let doc := persisterDoc c broker reloc.1
      let path := data_dir ++ "/" ++ c.name ++ "." ++ ser_name
      match persisterTry dump doc path fs1 with
      | .ok fs2 => (fs2, [])
      | .error (boom, fs2) =>
        (fsRemove fs2 path,
         ["Could not serialize " ++ c.name ++ " to " ++ ser_name ++ ": " ++ boom])
    else (fs, [])

/-! ### `get_to_persist` -/

/-- One element of the manifest's `persist` list: a `{name, enabled}` mapping
(with `enabled` optional) or a bare name. -/
inductive PersistEntry
  | dict (name : String) (enabled : Option Bool)
  | plain (name : String)
deriving Repr, DecidableEq

/-- The `specs()` generator of `get_to_persist`: a mapping yields
`(p["name"], p.get("enabled", True))`, a bare name yields `(p, True)`. -/
def specs : List PersistEntry → List (String × Bool)
  | [] => []
  | .dict n e :: rest => (n, e.getD true) :: specs rest
  | .plain n :: rest => (n, true) :: specs rest

/-- The inner loop of `get_to_persist` for one directive `(p, e)`: walk the
name-sorted components; a prefix match is added to the result set when `e`,
removed from it (if present) when not.  There is no early exit. -/
def persistSweep (p : String) (e : Bool) :
    List Comp → Finset Comp → Finset Comp
  | [], results => results
  | c :: rest, results =>
    persistSweep p e rest
      (if strStartsWith c.name p then
        (if e then insert c results
         else if c ∈ results then results.erase c else results)
       else results)

/-- Model of `get_to_persist(persisters)`: fold every directive of `specs()`
over the sorted component list, starting from the empty set. -/
def get_to_persist (persisters : List PersistEntry) (registry : List Comp) :
    Finset Comp :=
  (specs persisters).foldl
    (fun results pe => persistSweep pe.1 pe.2 (sortByName registry) results) ∅

/-- The enabled flag of the last directive whose name is a string prefix of
`name`, if any directive matches. -/
def lastMatchEnabled (name : String) (pes : List (String × Bool)) : Option Bool :=
  pes.foldl (fun acc pe => if strStartsWith name pe.1 then some pe.2 else acc) none

/-- Modelled from the spec: persist-directive resolution reusing the
paragraph 4.2 override semantics, whose prefix sweep stops, for one
directive, at a component whose name equals the directive's name exactly.
This variant is absent from the source (`get_to_persist` has no such stop)
and exists to compare the spec's description against the code. -/
def persistSweepSpec (p : String) (e : Bool) :
    List Comp → Finset Comp → Finset Comp
  | [], results => results
  | c :: rest, results =>
    let results2 :=
      if strStartsWith c.name p then
        (if e then insert c results
         else if c ∈ results then results.erase c else results)
      else results
    if c.name = p then results2
    else persistSweepSpec p e rest results2

/-- Modelled from the spec: `get_to_persist` as the spec describes it, with
the exact-match stop of paragraph 4.2. -/
def get_to_persist_spec (persisters : List PersistEntry) (registry : List Comp) :
    Finset Comp :=
  (specs persisters).foldl
    (fun results pe => persistSweepSpec pe.1 pe.2 (sortByName registry) results) ∅

/-! ### `create_archive` -/

/-- The observable outcome of `call(["tar", ...])`: the subprocess ran and
returned an exit status (which `create_archive` ignores), or launching it
raised an `OSError` (which propagates). -/
inductive TarOutcome
  | completed (exitCode : Int)
  | oserror (msg : String)
deriving Repr, DecidableEq

/-- `fs.remove(path)`: delete the tree rooted at `path` from a disk listed as
a set of paths. -/
def fsRemoveTree (path : String) (disk : List String) : List String :=
  disk.filter (fun d =>
    if d = path then false
    else if strStartsWith d (path ++ "/") then false else true)

/-- Model of `create_archive(path)`: run `tar`, ignore its exit status,
remove the working directory, and return the archive path.  Only an
`OSError` from launching `tar` escapes, in which case nothing is removed. -/
def create_archive (path : String) (tar : TarOutcome) (disk : List String) :
    Except String String × List String :=
  match tar with
  | .oserror msg => (.error msg, disk)
  | .completed _code => (.ok (path ++ ".tar.gz"), fsRemoveTree path disk)

/-! ### Basic lemmas about the string primitives and the override sweep -/

theorem charListLe_refl (x : List Char) : charListLe x x = true := by
  induction x with
  | nil => rfl
  | cons a as ih => simp [charListLe, ih]

theorem charListLe_total (x y : List Char) :
    charListLe x y = true ∨ charListLe y x = true := by
  induction x generalizing y with
  | nil => left; rfl
  | cons a as ih =>
    cases y with
    | nil => right; rfl
    | cons b bs =>
      rcases Nat.lt_trichotomy a.toNat b.toNat with h | h | h
      · left; simp [charListLe, h]
      · rcases ih bs with h2 | h2
        · left; simp [charListLe, h, h2]
        · right; simp [charListLe, h.symm, h2]
      · right; simp [charListLe, h]

theorem charListLe_trans {x y z : List Char}
    (hxy : charListLe x y = true) (hyz : charListLe y z = true) :
    charListLe x z = true := by
  induction x generalizing y z with
  | nil => rfl
  | cons a as ih =>
    cases y with
    | nil => simp [charListLe] at hxy
    | cons b bs =>
      cases z with
      | nil => simp [charListLe] at hyz
      | cons c cs =>
        simp only [charListLe] at hxy hyz ⊢
        by_cases hab : a.toNat < b.toNat
        · by_cases hbc : b.toNat < c.toNat
          · simp [show a.toNat < c.toNat from Nat.lt_trans hab hbc]
          · rw [if_neg hbc] at hyz
            by_cases hcb : c.toNat < b.toNat
            · rw [if_pos hcb] at hyz
              exact absurd hyz (by simp)
            · simp [show a.toNat < c.toNat by omega]
        · rw [if_neg hab] at hxy
          by_cases hba : b.toNat < a.toNat
          · rw [if_pos hba] at hxy
            exact absurd hxy (by simp)
          · rw [if_neg hba] at hxy
            by_cases hbc : b.toNat < c.toNat
            · simp [show a.toNat < c.toNat by omega]
            · rw [if_neg hbc] at hyz
              by_cases hcb : c.toNat < b.toNat
              · rw [if_pos hcb] at hyz
                exact absurd hyz (by simp)
              · rw [if_neg hcb] at hyz
                rw [if_neg (show ¬ a.toNat < c.toNat by omega),
                  if_neg (show ¬ c.toNat < a.toNat by omega)]
                exact ih hxy hyz

theorem isPrefixOf_self (l : List Char) : l.isPrefixOf l = true := by
  induction l with
  | nil => rfl
  | cons a as ih => simp [List.isPrefixOf, ih]

theorem strStartsWith_self (s : String) : strStartsWith s s = true :=
  isPrefixOf_self s.data

theorem sortByName_sorted (l : List Comp) :
    (sortByName l).Pairwise (fun a b => strLe a.name b.name = true) := by
  haveI : IsTotal Comp (fun a b => strLe a.name b.name = true) :=
    ⟨fun a b => charListLe_total a.name.data b.name.data⟩
  haveI : IsTrans Comp (fun a b => strLe a.name b.name = true) :=
    ⟨fun _ _ _ hab hbc => charListLe_trans hab hbc⟩
  exact List.sorted_insertionSort _ l

theorem sortByName_perm (l : List Comp) : (sortByName l).Perm l :=
  List.perm_insertionSort _ l

theorem applyConfigEntry_length (cfg : ComponentConfig) (l : List Comp) :
    (applyConfigEntry cfg l).length = l.length := by
  induction l with
  | nil => rfl
  | cons c rest ih =>
    simp only [applyConfigEntry]
    split <;> simp [ih]

/-- Pointwise description of one override sweep: position `i` is updated
exactly when its name starts with the entry's name and no strictly earlier
position is an exact match (the `break`). -/
theorem applyConfigEntry_getElem (cfg : ComponentConfig) (l : List Comp)
    (i : Nat) (hi : i < l.length) :
    (applyConfigEntry cfg l)[i]! =
      if strStartsWith (l[i]!).name cfg.name = true ∧
          (∀ j < i, (l[j]!).name ≠ cfg.name)
      then updateComp cfg l[i]! else l[i]! := by
  induction l generalizing i with
  | nil => simp at hi
  | cons c rest ih =>
    by_cases hbreak : c.name = cfg.name
    · have hsw : strStartsWith c.name cfg.name = true := by
        rw [hbreak]; exact strStartsWith_self _
      have hexp : applyConfigEntry cfg (c :: rest) = updateComp cfg c :: rest := by
        simp only [applyConfigEntry]
        rw [if_pos hbreak, if_pos hsw]
      rw [hexp]
      cases i with
      | zero =>
        simp only [List.getElem!_cons_zero]
        rw [if_pos ⟨hsw, fun j hj => absurd hj (Nat.not_lt_zero j)⟩]
      | succ j =>
        simp only [List.getElem!_cons_succ]
        have hcond : ¬ (strStartsWith ((rest[j]!)).name cfg.name = true ∧
            ∀ j2 < j + 1, (((c :: rest)[j2]!)).name ≠ cfg.name) := by
          rintro ⟨-, hall⟩
          exact hall 0 (Nat.succ_pos j)
            (by simp only [List.getElem!_cons_zero]; exact hbreak)
        rw [if_neg hcond]
    · have hexp : applyConfigEntry cfg (c :: rest) =
          (if strStartsWith c.name cfg.name then updateComp cfg c else c) ::
            applyConfigEntry cfg rest := by
        simp [applyConfigEntry, hbreak]
      rw [hexp]
      cases i with
      | zero =>
        simp only [List.getElem!_cons_zero]
        by_cases hs : strStartsWith c.name cfg.name = true
        · rw [if_pos hs, if_pos ⟨hs, fun j hj => absurd hj (Nat.not_lt_zero j)⟩]
        · rw [if_neg hs, if_neg (fun hc => hs hc.1)]
      | succ j =>
        have hj : j < rest.length := by simpa using hi
        simp only [List.getElem!_cons_succ]
        rw [ih j hj]
        have hiff : (∀ j2 < j, ((rest[j2]!)).name ≠ cfg.name) ↔
            (∀ j2 < j + 1, (((c :: rest)[j2]!)).name ≠ cfg.name) := by
          constructor
          · intro h j2 hj2
            cases j2 with
            | zero => simp only [List.getElem!_cons_zero]; exact hbreak
            | succ j3 =>
              simp only [List.getElem!_cons_succ]
              exact h j3 (by omega)
          · intro h j2 hj2
            have := h (j2 + 1) (by omega)
            simpa only [List.getElem!_cons_succ] using this
        by_cases hs : strStartsWith ((rest[j]!)).name cfg.name = true
        · by_cases hall : ∀ j2 < j, ((rest[j2]!)).name ≠ cfg.name
          · rw [if_pos ⟨hs, hall⟩, if_pos ⟨hs, hiff.mp hall⟩]
          · rw [if_neg (fun hc => hall hc.2), if_neg (fun hc => hall (hiff.mpr hc.2))]
        · rw [if_neg (fun hc => hs hc.1), if_neg (fun hc => hs hc.1)]

theorem lookupBy_map_const (l : List (String × Bool)) (b : Bool) (k : String) :
    lookupBy (l.map fun kv => (kv.1, b)) k = none ∨
      lookupBy (l.map fun kv => (kv.1, b)) k = some b := by
  induction l with
  | nil => left; rfl
  | cons kv rest ih =>
    simp only [List.map_cons, lookupBy]
    by_cases h : kv.1 = k
    · right; rw [if_pos h]
    · rw [if_neg h]; exact ih

theorem move_it_zero (root : String) (filters : List String) (r : CollectResult) :
    move_it root 0 filters r = (contentLoaded r, none) := by
  cases r with
  | value v => rfl
  | file fp =>
    cases fp with
    | mk p rp ld sz ls =>
      cases ld with
      | true => simp [move_it, contentLoaded]
      | false => simp [move_it, contentLoaded]

theorem relocate_many_zero (root : String) (filters : List String)
    (rs : List CollectResult) :
    relocate (.many rs) root 0 filters = (.many (rs.map contentLoaded), []) := by
  induction rs with
  | nil => rfl
  | cons a rest ih =>
    simp only [relocate] at ih ⊢
    have ih1 : (rest.map (move_it root 0 filters)).map Prod.fst =
        rest.map contentLoaded := by
      have h := congrArg Prod.fst ih
      simpa using h
    have ih2 : (rest.map (move_it root 0 filters)).filterMap Prod.snd = [] := by
      have h := congrArg Prod.snd ih
      simpa using h
    rw [List.map_cons, List.map_cons, List.filterMap_cons, move_it_zero root filters a,
      ih1, ih2]
    simp

/-! ### Claim theorems -/

/-- Claim C5: after `apply_default_enabled(b)`, reading the enabled-state of
any key — one materialized at call time, or any key absent then (a component
registered later) — yields `b`. -/
theorem apply_default_enabled_read (b : Bool) (m : EnabledMap) (k : String) :
    (apply_default_enabled b m).read k = b := by
  unfold apply_default_enabled EnabledMap.read
  rcases lookupBy_map_const m.entries b k with h | h <;> simp [h]

/-- Claim C8: `load_manifest` returns a mapping input unchanged, fails with
the manifest-format error exactly when parsing raw text does not yield a
mapping, and is idempotent: re-loading any successful result is the identity. -/
theorem load_manifest_contract (parse : String → YamlVal)
    (d : List (String × YamlVal)) (s : String) :
    load_manifest parse (.dict d) = .ok d
    ∧ ((∃ d2, load_manifest parse (.raw s) = .ok d2) ↔ ∃ d2, parse s = .dict d2)
    ∧ (load_manifest parse (.raw s) = .error "Manifest didn't result in dict."
        ↔ ∀ d2, parse s ≠ .dict d2)
    ∧ (∀ inp d2, load_manifest parse inp = .ok d2 →
        load_manifest parse (.dict d2) = .ok d2) := by
  refine ⟨rfl, ?_, ?_, fun inp d2 _ => rfl⟩
  · cases hp : parse s <;> simp [load_manifest, hp]
  · cases hp : parse s <;> simp [load_manifest, hp]

theorem load_manifest_contract_witness :
    load_manifest (fun _ => YamlVal.dict []) (.dict [("version", .num 0)])
        = .ok [("version", .num 0)]
    ∧ load_manifest (fun _ => YamlVal.dict []) (.dict []) = .ok [] :=
  ⟨(load_manifest_contract (fun _ => .dict []) [("version", .num 0)] "x").1,
   (load_manifest_contract (fun _ => .dict []) [("version", .num 0)] "x").2.2.2
     (.raw "x") [] rfl⟩

/-- Claim C10: with threshold 0 — the value `collect` uses when the manifest
omits `max_serializable_file_size` — `relocate` copies nothing into the
raw-data directory and loads every deferred file reference into memory
regardless of its size. -/
theorem relocate_zero_threshold_no_copy (rs : List CollectResult)
    (r : CollectResult) (root : String) (filters : List String) :
    relocate (.many rs) root 0 filters = (.many (rs.map contentLoaded), [])
    ∧ relocate (.one r) root 0 filters = (.one (contentLoaded r), [])
    ∧ (∀ fp, contentLoaded (.file fp) = .file { fp with loaded := true })
    ∧ collect_max_file_size none = 0 := by
  refine ⟨relocate_many_zero root filters rs, ?_, fun fp => rfl, rfl⟩
  simp [relocate, move_it_zero root filters r]

/-- Claim C4: for an unloaded deferred file reference and a positive
threshold, `relocate` copies the file — filtered to the lines containing at
least one filter substring when filters are given — to the raw-data
destination that mirrors its relative path, leaving the reference unloaded,
exactly when the file's size exceeds the threshold; otherwise it loads the
content into memory and performs no copy. -/
theorem relocate_threshold (fp : FileProvider) (root : String) (max_size : Nat)
    (filters : List String) (hunloaded : fp.loaded = false) (hpos : 0 < max_size) :
    (fp.fileSize > max_size →
      relocate (.one (.file fp)) root max_size filters =
        (.one (.file fp),
          [⟨pathJoin root fp.relative_path,
            if filters.isEmpty then fp.fileLines
            else fp.fileLines.filter
              (fun line => filters.any (fun f => strContains line f))⟩]))
    ∧ (fp.fileSize ≤ max_size →
      relocate (.one (.file fp)) root max_size filters =
        (.one (.file { fp with loaded := true }), [])) := by
  constructor
  · intro hgt
    have hc : max_size ≠ 0 ∧ fp.fileSize > max_size :=
      ⟨Nat.pos_iff_ne_zero.mp hpos, hgt⟩
    simp [relocate, move_it, hunloaded, hc, copy, grepFilter]
  · intro hle
    have hc : ¬ (max_size ≠ 0 ∧ fp.fileSize > max_size) :=
      fun h => absurd h.2 (Nat.not_lt.mpr hle)
    simp [relocate, move_it, hunloaded, hc]

theorem relocate_threshold_witness :
    (FileProvider.mk "/etc/hosts" "etc/hosts" false 10 ["lineA"]).loaded = false
    ∧ 0 < 5
    ∧ ((10 > 5 →
        relocate (.one (.file (FileProvider.mk "/etc/hosts" "etc/hosts" false 10 ["lineA"])))
            "raw" 5 [] =
          (.one (.file (FileProvider.mk "/etc/hosts" "etc/hosts" false 10 ["lineA"])),
            [⟨pathJoin "raw" "etc/hosts",
              if ([] : List String).isEmpty then ["lineA"]
              else ["lineA"].filter
                (fun line => ([] : List String).any (fun f => strContains line f))⟩]))
      ∧ (10 ≤ 5 →
        relocate (.one (.file (FileProvider.mk "/etc/hosts" "etc/hosts" false 10 ["lineA"])))
            "raw" 5 [] =
          (.one (.file (FileProvider.mk "/etc/hosts" "etc/hosts" true 10 ["lineA"])), []))) :=
  ⟨rfl, by decide,
   relocate_threshold (FileProvider.mk "/etc/hosts" "etc/hosts" false 10 ["lineA"])
     "raw" 5 [] rfl (by decide)⟩

/-- Claim C9: an override entry with no `timeout` key sets the timeout of
every component it matches and that supports one to `None`, rather than
leaving it unchanged. -/
theorem apply_configs_clears_timeout (cfg : ComponentConfig)
    (hno : cfg.timeout = none) (l : List Comp) (i : Nat) (hi : i < l.length)
    (hmatch : strStartsWith ((l[i]!)).name cfg.name = true)
    (hscan : ∀ j < i, ((l[j]!)).name ≠ cfg.name)
    (htim : ((l[i]!)).hasTimeout = true) :
    ((applyConfigEntry cfg l)[i]!).timeout = none := by
  rw [applyConfigEntry_getElem cfg l i hi, if_pos ⟨hmatch, hscan⟩]
  simp [updateComp, htim, hno]

theorem apply_configs_clears_timeout_witness :
    (ComponentConfig.mk "a" none [] none).timeout = none
    ∧ 0 < ([Comp.mk "a.b" true [] true (some 5)] : List Comp).length
    ∧ strStartsWith (([Comp.mk "a.b" true [] true (some 5)] : List Comp)[0]!).name "a" = true
    ∧ (∀ j < 0, ((([Comp.mk "a.b" true [] true (some 5)] : List Comp)[j]!)).name ≠ "a")
    ∧ (([Comp.mk "a.b" true [] true (some 5)] : List Comp)[0]!).hasTimeout = true
    ∧ ((applyConfigEntry (ComponentConfig.mk "a" none [] none)
        [Comp.mk "a.b" true [] true (some 5)])[0]!).timeout = none :=
  ⟨rfl, by decide, by decide, by decide, rfl,
   apply_configs_clears_timeout (ComponentConfig.mk "a" none [] none) rfl
     [Comp.mk "a.b" true [] true (some 5)] 0 (by decide) (by decide)
     (by decide) rfl⟩

/-- Claim C1: `apply_configs` scans the registered components in ascending
name order (a sorted permutation of the registry); within one override entry
every scanned component whose name starts with the entry's name is updated
(enabled-state set, metadata merged, timeout set when supported), a scanned
component whose name equals the entry's name exactly is updated and then
stops the scan for that entry only; the following entries are again applied
to the whole component list. -/
theorem apply_configs_ordered_prefix_override
    (cfg : ComponentConfig) (cfgs : List ComponentConfig) (registry : List Comp)
    (l : List Comp) (i : Nat) (hi : i < l.length) :
    ((sortByName registry).Pairwise (fun a b => strLe a.name b.name = true)
      ∧ (sortByName registry).Perm registry)
    ∧ apply_configs (cfg :: cfgs) registry
        = cfgs.foldl (fun comps c => applyConfigEntry c comps)
            (applyConfigEntry cfg (sortByName registry))
    ∧ (applyConfigEntry cfg l)[i]! =
        (if strStartsWith ((l[i]!)).name cfg.name = true ∧
            (∀ j < i, ((l[j]!)).name ≠ cfg.name)
         then updateComp cfg (l[i]!) else l[i]!) :=
  ⟨⟨sortByName_sorted registry, sortByName_perm registry⟩, rfl,
   applyConfigEntry_getElem cfg l i hi⟩

theorem strStartsWith_trans {s p q : String} (hpq : strStartsWith q p = true)
    (hsq : strStartsWith s q = true) : strStartsWith s p = true := by
  unfold strStartsWith at hpq hsq ⊢
  rw [List.isPrefixOf_iff_prefix] at hpq hsq ⊢
  exact hpq.trans hsq

theorem applyEntryStep_name (cfg : ComponentConfig) (c : Comp) :
    ((if strStartsWith c.name cfg.name then updateComp cfg c else c)).name = c.name := by
  by_cases h : strStartsWith c.name cfg.name = true
  · rw [if_pos h]; rfl
  · rw [if_neg h]

theorem applyConfigEntry_eq_map (cfg : ComponentConfig) (l : List Comp)
    (h : ∀ c ∈ l, c.name ≠ cfg.name) :
    applyConfigEntry cfg l =
      l.map (fun c => if strStartsWith c.name cfg.name then updateComp cfg c else c) := by
  induction l with
  | nil => rfl
  | cons c rest ih =>
    have hc : c.name ≠ cfg.name := h c (List.mem_cons_self c rest)
    simp only [applyConfigEntry, List.map_cons]
    rw [if_neg hc, ih (fun x hx => h x (List.mem_cons_of_mem c hx))]

/-- Counterexample to claim C2: with registered components named `a.b` and
`a.b.c`, the override list
`[{name: a, enabled: false}, {name: a.b, enabled: true}]` leaves `a.b.c`
disabled, because the second entry stops scanning at the exact match `a.b`
before reaching `a.b.c`. -/
theorem apply_configs_two_level_cex :
    ∃ c ∈ apply_configs
        [ComponentConfig.mk "a" (some false) [] none,
         ComponentConfig.mk "a.b" (some true) [] none]
        [Comp.mk "a.b" true [] false none, Comp.mk "a.b.c" true [] false none],
      strStartsWith c.name "a.b" = true ∧ c.enabled = false := by
  decide

/-- Claim C2 (amended): when no registered component is named exactly `a` or
exactly `a.b` (so no exact-match stop fires), applying
`[{name_prefix: a, enabled: false}, {name_prefix: a.b, enabled: true}]`
leaves every component under `a.b` enabled and every other component under
`a` disabled — the later, more specific entry overriding the earlier one. -/
theorem apply_configs_two_level (registry : List Comp)
    (h1 : ∀ c ∈ registry, c.name ≠ "a")
    (h2 : ∀ c ∈ registry, c.name ≠ "a.b") :
    ∀ c ∈ apply_configs
        [ComponentConfig.mk "a" (some false) [] none,
         ComponentConfig.mk "a.b" (some true) [] none] registry,
      (strStartsWith c.name "a.b" = true → c.enabled = true)
      ∧ (strStartsWith c.name "a" = true → strStartsWith c.name "a.b" = false →
          c.enabled = false) := by
  intro c hc
  have hperm := sortByName_perm registry
  have h1s : ∀ x ∈ sortByName registry, x.name ≠ "a" :=
    fun x hx => h1 x (hperm.mem_iff.mp hx)
  have h2s : ∀ x ∈ sortByName registry, x.name ≠ "a.b" :=
    fun x hx => h2 x (hperm.mem_iff.mp hx)
  have he1 := applyConfigEntry_eq_map (ComponentConfig.mk "a" (some false) [] none)
    (sortByName registry) h1s
  have h2m : ∀ x ∈ (sortByName registry).map
      (fun c => if strStartsWith c.name "a"
        then updateComp (ComponentConfig.mk "a" (some false) [] none) c else c),
      x.name ≠ "a.b" := by
    intro x hx
    obtain ⟨x0, hx0, rfl⟩ := List.mem_map.mp hx
    by_cases hsw : strStartsWith x0.name "a" = true
    · rw [if_pos hsw]; exact h2s x0 hx0
    · rw [if_neg hsw]; exact h2s x0 hx0
  have he2 := applyConfigEntry_eq_map (ComponentConfig.mk "a.b" (some true) [] none)
    _ h2m
  have hrw : apply_configs
      [ComponentConfig.mk "a" (some false) [] none,
       ComponentConfig.mk "a.b" (some true) [] none] registry
      = ((sortByName registry).map
          (fun c => if strStartsWith c.name "a"
            then updateComp (ComponentConfig.mk "a" (some false) [] none) c else c)).map
          (fun c => if strStartsWith c.name "a.b"
            then updateComp (ComponentConfig.mk "a.b" (some true) [] none) c else c) := by
    show applyConfigEntry (ComponentConfig.mk "a.b" (some true) [] none)
        (applyConfigEntry (ComponentConfig.mk "a" (some false) [] none)
          (sortByName registry)) = _
    rw [he1, he2]
  rw [hrw] at hc
  obtain ⟨x1, hx1, rfl⟩ := List.mem_map.mp hc
  obtain ⟨x0, hx0, rfl⟩ := List.mem_map.mp hx1
  by_cases hab : strStartsWith x0.name "a.b" = true
  · have ha : strStartsWith x0.name "a" = true :=
      strStartsWith_trans (by decide) hab
    rw [if_pos ha]
    rw [if_pos (show strStartsWith
      (updateComp (ComponentConfig.mk "a" (some false) [] none) x0).name "a.b" = true
      from hab)]
    refine ⟨fun _ => rfl, fun _ hcontra => ?_⟩
    rw [show (updateComp (ComponentConfig.mk "a.b" (some true) [] none)
        (updateComp (ComponentConfig.mk "a" (some false) [] none) x0)).name = x0.name
      from rfl, hab] at hcontra
    exact absurd hcontra (by simp)
  · by_cases ha : strStartsWith x0.name "a" = true
    · rw [if_pos ha]
      rw [if_neg (show ¬ strStartsWith
          (updateComp (ComponentConfig.mk "a" (some false) [] none) x0).name "a.b" = true
        from hab)]
      exact ⟨fun hcontra => absurd hcontra hab, fun _ _ => rfl⟩
    · rw [if_neg ha, if_neg (show ¬ strStartsWith x0.name "a.b" = true from hab)]
      exact ⟨fun hcontra => absurd hcontra hab, fun hcontra _ => absurd hcontra ha⟩

theorem apply_configs_two_level_witness :
    (∀ c ∈ ([Comp.mk "a.b.c" true [] false none] : List Comp), c.name ≠ "a")
    ∧ (∀ c ∈ ([Comp.mk "a.b.c" true [] false none] : List Comp), c.name ≠ "a.b")
    ∧ (∀ c ∈ apply_configs
        [ComponentConfig.mk "a" (some false) [] none,
         ComponentConfig.mk "a.b" (some true) [] none]
        [Comp.mk "a.b.c" true [] false none],
      (strStartsWith c.name "a.b" = true → c.enabled = true)
      ∧ (strStartsWith c.name "a" = true → strStartsWith c.name "a.b" = false →
          c.enabled = false)) :=
  ⟨by decide, by decide,
   apply_configs_two_level [Comp.mk "a.b.c" true [] false none] (by decide) (by decide)⟩

theorem mem_persistSweep (p : String) (e : Bool) (comps : List Comp)
    (results : Finset Comp) (c : Comp) :
    c ∈ persistSweep p e comps results ↔
      (if c ∈ comps ∧ strStartsWith c.name p = true then e = true
       else c ∈ results) := by
  induction comps generalizing results with
  | nil =>
    rw [persistSweep, if_neg (fun h => (List.not_mem_nil c) h.1)]
  | cons d rest ih =>
    rw [persistSweep, ih]
    by_cases hcr : c ∈ rest ∧ strStartsWith c.name p = true
    · rw [if_pos hcr, if_pos ⟨List.mem_cons_of_mem d hcr.1, hcr.2⟩]
    · rw [if_neg hcr]
      by_cases hcd : c = d ∧ strStartsWith c.name p = true
      · obtain ⟨rfl, hsw⟩ := hcd
        have houter : c ∈ c :: rest ∧ strStartsWith c.name p = true :=
          ⟨List.mem_cons_self c rest, hsw⟩
        rw [if_pos houter]
        cases e with
        | true => simp [hsw]
        | false =>
          by_cases hmem : c ∈ results
          · simp [hsw, hmem]
          · simp [hsw, hmem]
      · have hout : ¬ (c ∈ d :: rest ∧ strStartsWith c.name p = true) := by
          rintro ⟨hmem, hsw⟩
          rcases List.mem_cons.mp hmem with rfl | hmem2
          · exact hcd ⟨rfl, hsw⟩
          · exact hcr ⟨hmem2, hsw⟩
        rw [if_neg hout]
        by_cases hswd : strStartsWith d.name p = true
        · rw [if_pos hswd]
          by_cases hcd2 : c = d
          · exact absurd ⟨hcd2, by rw [hcd2]; exact hswd⟩ hcd
          · cases e with
            | true => simp [Finset.mem_insert, hcd2]
            | false =>
              by_cases hmem : d ∈ results
              · simp [hmem, Finset.mem_erase, hcd2]
              · simp [hmem]
        · rw [if_neg hswd]

theorem lastMatchEnabled_acc (name : String) (pes : List (String × Bool))
    (acc : Option Bool) :
    pes.foldl (fun a pe => if strStartsWith name pe.1 then some pe.2 else a) acc =
      (match lastMatchEnabled name pes with
       | some e => some e
       | none => acc) := by
  induction pes generalizing acc with
  | nil => rfl
  | cons pe rest ih =>
    rw [List.foldl_cons, ih]
    have hrhs : lastMatchEnabled name (pe :: rest) =
        (match lastMatchEnabled name rest with
         | some e => some e
         | none => if strStartsWith name pe.1 then some pe.2 else none) :=
      ih (if strStartsWith name pe.1 then some pe.2 else none)
    rw [hrhs]
    cases lastMatchEnabled name rest with
    | some e => rfl
    | none =>
      by_cases hsw : strStartsWith name pe.1 = true
      · simp [hsw]
      · simp [hsw]

theorem mem_foldl_persistSweep (pes : List (String × Bool)) (comps : List Comp)
    (results0 : Finset Comp) (c : Comp) :
    (c ∈ pes.foldl (fun r pe => persistSweep pe.1 pe.2 comps r) results0) ↔
      (match lastMatchEnabled c.name pes with
       | some e => (c ∈ comps ∧ e = true) ∨ (c ∉ comps ∧ c ∈ results0)
       | none => c ∈ results0) := by
  induction pes generalizing results0 with
  | nil => rfl
  | cons pe rest ih =>
    simp only [List.foldl_cons]
    rw [ih]
    have hpe : lastMatchEnabled c.name (pe :: rest) =
        (match lastMatchEnabled c.name rest with
         | some e => some e
         | none => if strStartsWith c.name pe.1 then some pe.2 else none) := by
      simp only [lastMatchEnabled, List.foldl_cons]
      exact lastMatchEnabled_acc c.name rest _
    rw [hpe]
    have hsw := mem_persistSweep pe.1 pe.2 comps results0 c
    cases hrest : lastMatchEnabled c.name rest with
    | some e =>
      by_cases hc : c ∈ comps
      · simp [hc]
      · simp only [hc, false_and, false_or, true_and, not_false_iff]
        rw [hsw, if_neg (fun h => hc h.1)]
    | none =>
      rw [hsw]
      by_cases hswc : strStartsWith c.name pe.1 = true
      · rw [if_pos hswc]
        by_cases hc : c ∈ comps
        · rw [if_pos ⟨hc, hswc⟩]
          simp [hc]
        · rw [if_neg (fun h => hc h.1)]
          simp [hc]
      · rw [if_neg hswc, if_neg (fun h => hswc h.2)]

/-- Counterexample to claim C3: `get_to_persist` has no exact-match stop.
With components `a` and `a.b` and the single directive
`{name: a, enabled: true}`, the code selects both components, while the
claimed paragraph 4.2 semantics would stop at the exact match `a` and select
only it. -/
theorem get_to_persist_exact_match_cex :
    (Comp.mk "a.b" true [] false none) ∈
        get_to_persist [PersistEntry.dict "a" (some true)]
          [Comp.mk "a" true [] false none, Comp.mk "a.b" true [] false none]
    ∧ (Comp.mk "a.b" true [] false none) ∉
        get_to_persist_spec [PersistEntry.dict "a" (some true)]
          [Comp.mk "a" true [] false none, Comp.mk "a.b" true [] false none] := by
  decide

/-- Claim C3 (amended): `get_to_persist` applies the persist directives in
list order over the components sorted by name, a later directive overriding
an earlier one for the same component, and — unlike `apply_configs` — it
never stops at an exact name match: every directive sweeps all
prefix-matching components, so a component is selected exactly when the last
directive whose name is a prefix of its name is enabled. -/
theorem get_to_persist_last_directive (persisters : List PersistEntry)
    (registry : List Comp) (c : Comp) :
    c ∈ get_to_persist persisters registry ↔
      (c ∈ registry ∧ lastMatchEnabled c.name (specs persisters) = some true) := by
  unfold get_to_persist
  rw [mem_foldl_persistSweep]
  cases h : lastMatchEnabled c.name (specs persisters) with
  | none => simp
  | some e =>
    have hmem : c ∈ sortByName registry ↔ c ∈ registry :=
      (sortByName_perm registry).mem_iff
    simp [hmem, Finset.not_mem_empty]

theorem get_to_persist_last_directive_witness :
    (Comp.mk "a.b" true [] false none) ∈
        get_to_persist [PersistEntry.dict "a" (some true)]
          [Comp.mk "a.b" true [] false none]
      ↔ ((Comp.mk "a.b" true [] false none) ∈ [Comp.mk "a.b" true [] false none]
          ∧ lastMatchEnabled "a.b" (specs [PersistEntry.dict "a" (some true)])
              = some true) :=
  get_to_persist_last_directive [PersistEntry.dict "a" (some true)]
    [Comp.mk "a.b" true [] false none] (Comp.mk "a.b" true [] false none)

theorem lookupBy_filter_self {β : Type} (l : List (String × β)) (p : String) :
    lookupBy (l.filter (fun kv => if kv.1 = p then false else true)) p = none := by
  induction l with
  | nil => rfl
  | cons kv rest ih =>
    by_cases h : kv.1 = p
    · simpa [List.filter_cons, h] using ih
    · simpa [List.filter_cons, h, lookupBy] using ih

/-- Claim C6: when serializing or writing a component's document raises, the
persister logs the failure, removes the partially written per-component
file, and returns normally — the exception is caught, so the run continues. -/
theorem persister_failure_contained
    (dump : PersistDoc → Except String String) (ser_name : String)
    (to_persist : Finset Comp) (raw_data_dir data_dir : String) (max_size : Nat)
    (filters : Comp → List String) (c : Comp) (broker : Broker) (fs : FS)
    (value0 : Results) (boom : String)
    (hin : lookupBy broker.instances c = some value0)
    (hsel : c ∈ to_persist)
    (hfail : dump (persisterDoc c broker
        (persisterValue value0 raw_data_dir max_size (filters c)).1) = .error boom) :
    lookupBy (persister dump ser_name to_persist raw_data_dir data_dir max_size
        filters c broker fs).1.files
        (data_dir ++ "/" ++ c.name ++ "." ++ ser_name) = none
    ∧ (persister dump ser_name to_persist raw_data_dir data_dir max_size
        filters c broker fs).2 =
      ["Could not serialize " ++ c.name ++ " to " ++ ser_name ++ ": " ++ boom] := by
  unfold persister
  simp only [hin]
  rw [if_pos hsel]
  simp only [persisterTry, hfail]
  exact ⟨lookupBy_filter_self _ _, by trivial⟩

theorem persister_failure_contained_witness :
    lookupBy (Broker.mk [(Comp.mk "a" true [] false none, .one (.value "v"))] [] []).instances
        (Comp.mk "a" true [] false none) = some (.one (.value "v"))
    ∧ (Comp.mk "a" true [] false none) ∈ ({Comp.mk "a" true [] false none} : Finset Comp)
    ∧ (fun _ => (Except.error "boom" : Except String String))
        (persisterDoc (Comp.mk "a" true [] false none)
          (Broker.mk [(Comp.mk "a" true [] false none, .one (.value "v"))] [] [])
          (persisterValue (.one (.value "v")) "out/raw_data" 0
            ((fun _ => []) (Comp.mk "a" true [] false none))).1) = .error "boom"
    ∧ lookupBy (persister (fun _ => .error "boom") "json"
        ({Comp.mk "a" true [] false none} : Finset Comp) "out/raw_data" "out/data" 0
        (fun _ => []) (Comp.mk "a" true [] false none)
        (Broker.mk [(Comp.mk "a" true [] false none, .one (.value "v"))] [] [])
        (FS.mk [])).1.files
        ("out/data" ++ "/" ++ (Comp.mk "a" true [] false none).name ++ "." ++ "json") = none
    ∧ (persister (fun _ => .error "boom") "json"
        ({Comp.mk "a" true [] false none} : Finset Comp) "out/raw_data" "out/data" 0
        (fun _ => []) (Comp.mk "a" true [] false none)
        (Broker.mk [(Comp.mk "a" true [] false none, .one (.value "v"))] [] [])
        (FS.mk [])).2 =
      ["Could not serialize " ++ (Comp.mk "a" true [] false none).name ++ " to "
        ++ "json" ++ ": " ++ "boom"] := by
  refine ⟨by decide, by decide, rfl, ?_, ?_⟩
  · exact (persister_failure_contained (fun _ => .error "boom") "json"
      ({Comp.mk "a" true [] false none} : Finset Comp) "out/raw_data" "out/data" 0
      (fun _ => []) (Comp.mk "a" true [] false none)
      (Broker.mk [(Comp.mk "a" true [] false none, .one (.value "v"))] [] [])
      (FS.mk []) (.one (.value "v")) "boom" (by decide) (by decide) rfl).1
  · exact (persister_failure_contained (fun _ => .error "boom") "json"
      ({Comp.mk "a" true [] false none} : Finset Comp) "out/raw_data" "out/data" 0
      (fun _ => []) (Comp.mk "a" true [] false none)
      (Broker.mk [(Comp.mk "a" true [] false none, .one (.value "v"))] [] [])
      (FS.mk []) (.one (.value "v")) "boom" (by decide) (by decide) rfl).2

/-- Counterexample to claim C7: with the `tar` subprocess completing with
exit status 2 — a failed packaging run — `create_archive` still returns the
archive path as if it had succeeded (nothing is surfaced to the caller) and
the unpacked working directory is removed rather than left in place. -/
theorem create_archive_cex :
    (create_archive "/tmp/insights-run" (.completed 2) ["/tmp/insights-run"]).1
        = .ok "/tmp/insights-run.tar.gz"
    ∧ "/tmp/insights-run" ∉
        (create_archive "/tmp/insights-run" (.completed 2) ["/tmp/insights-run"]).2 := by
  constructor
  · rfl
  · decide

/-- Claim C7 (amended): only an OS error raised while launching `tar`
propagates to the caller, and then the disk is untouched; when the `tar`
process runs and exits — with any status, including a failing one —
`create_archive` surfaces nothing: it ignores the exit status, removes the
working directory tree, and returns the archive path. -/
theorem create_archive_behavior (path : String) (disk : List String)
    (code : Int) (msg : String) :
    create_archive path (.oserror msg) disk = (.error msg, disk)
    ∧ create_archive path (.completed code) disk
        = (.ok (path ++ ".tar.gz"), fsRemoveTree path disk)
    ∧ path ∉ (create_archive path (.completed code) disk).2 := by
  refine ⟨rfl, rfl, ?_⟩
  intro hmem
  have hmem2 : path ∈ disk.filter (fun d =>
      if d = path then false
      else if strStartsWith d (path ++ "/") then false else true) := hmem
  have hcond := (List.mem_filter.mp hmem2).2
  rw [if_pos rfl] at hcond
  exact absurd hcond (by simp)

theorem create_archive_behavior_witness :
    create_archive "/t/w" (.oserror "exec error") ["/t/w"]
        = (.error "exec error", ["/t/w"])
    ∧ create_archive "/t/w" (.completed 2) ["/t/w"]
        = (.ok ("/t/w" ++ ".tar.gz"), fsRemoveTree "/t/w" ["/t/w"])
    ∧ "/t/w" ∉ (create_archive "/t/w" (.completed 2) ["/t/w"]).2 :=
  create_archive_behavior "/t/w" ["/t/w"] 2 "exec error"

theorem apply_configs_ordered_prefix_override_witness :
    0 < ([Comp.mk "a.b" true [] false none] : List Comp).length
    ∧ (((sortByName []).Pairwise (fun a b => strLe a.name b.name = true)
        ∧ (sortByName []).Perm [])
      ∧ apply_configs [ComponentConfig.mk "a" (some false) [] none] []
          = [].foldl (fun comps c => applyConfigEntry c comps)
              (applyConfigEntry (ComponentConfig.mk "a" (some false) [] none)
                (sortByName []))
      ∧ (applyConfigEntry (ComponentConfig.mk "a" (some false) [] none)
            [Comp.mk "a.b" true [] false none])[0]! =
          (if strStartsWith ((([Comp.mk "a.b" true [] false none] : List Comp)[0]!)).name
                "a" = true ∧
              (∀ j < 0, ((([Comp.mk "a.b" true [] false none] : List Comp)[j]!)).name ≠ "a")
           then updateComp (ComponentConfig.mk "a" (some false) [] none)
             (([Comp.mk "a.b" true [] false none] : List Comp)[0]!)
           else ([Comp.mk "a.b" true [] false none] : List Comp)[0]!)) :=
  ⟨by decide,
   apply_configs_ordered_prefix_override (ComponentConfig.mk "a" (some false) [] none)
     [] [] [Comp.mk "a.b" true [] false none] 0 (by decide)⟩

end Insights
